import Mathlib

/-!
Verification of the ledger & debt-settlement engine of the
py-telegram-splitwise-bot repository.

The development shallowly embeds the Python sources in Lean 4:

* `simplify_debts` (src/tests/test_simplify_debts.py; identical algorithm in
  `BillSplitBot._simplify_debts` of src/bot/bot.py and `simplify_group_debts`
  of src/fastapi_backend.py): the greedy debt simplifier.
* `recordExpense` (validation pipeline of the `ExpenseData` pydantic
  validators and `BillSplitBot._create_expense` of src/bot/bot.py): expense
  recording.
* `balancesFun` / `calcUserBalances` (`BillSplitBot._calculate_user_balances`
  of src/bot/bot.py): the pairwise balance heuristic.
* `simplifyS` (store-passing variant of `simplify_debts`): makes the Python
  heap explicit, so that the absence of mutation of the caller's balance dict
  is a provable statement rather than a triviality of the functional embedding.

Currency amounts are embedded as `ℚ`.  The Python source computes with binary
floating point; the spec (§9, "Floating-point currency arithmetic") explicitly
allows an exact-arithmetic reading as long as the 0.01-tolerance comparisons
are preserved, and every concrete input used below is far enough from the
tolerance boundaries that the float/rational distinction cannot change any
comparison made by the code.

The greedy settle loop is written with an explicit fuel parameter so that it
is structurally recursive and therefore evaluates inside the kernel; the fuel
`debtors.length + creditors.length` is provably sufficient because every loop
iteration advances at least one cursor (`settleLoopF_congr` shows the result
is independent of the fuel once the fuel is at least that bound, so the
definition coincides with the unbounded Python `while` loop).
-/

/-- A settling transaction, `{"from": ..., "to": ..., "amount": ...}` in the
Python source.  `from` is a Lean keyword, so the fields are named `src`/`dst`. -/
structure Txn where
  src : String
  dst : String
  amount : ℚ
deriving DecidableEq, Repr

/-- One entry of the Python `creditors`/`debtors` work lists:
`{"username": ..., "amount": ...}`. -/
structure Person where
  username : String
  amount : ℚ
deriving DecidableEq, Repr

/-- Floor of a rational, computed on the reduced numerator/denominator so that
it evaluates inside the kernel (Mathlib's `Int.floor` on `ℚ` does not). -/
def ratFloor (q : ℚ) : ℤ := q.num.fdiv q.den

/-- Round-half-to-even to an integer, the rounding mode of Python's built-in
`round` (idealized over `ℚ`; the float representation error is irrelevant for
every amount appearing in this development). -/
def roundHalfEven (q : ℚ) : ℤ :=
  let f := ratFloor q
  let r := q - f
  if r < 1/2 then f
  else if 1/2 < r then f + 1
  else if f % 2 = 0 then f else f + 1

/-- Python's `round(x, 2)`. -/
def round2 (q : ℚ) : ℚ := (roundHalfEven (q * 100) : ℚ) / 100

/-- Stable insertion of `x` into a list sorted descending by `key`: `x` goes
in front of the first element whose key is ≤ its own, hence after all earlier
elements with an equal key. -/
def insertDescBy {α : Type} (key : α → ℚ) (x : α) : List α → List α
  | [] => [x]
  | y :: ys => if key y ≤ key x then x :: y :: ys else y :: insertDescBy key x ys

/-- Stable descending sort by `key`, the semantics of Python's
`list.sort(key=..., reverse=True)` (descending keys, equal-key elements in
their original relative order). -/
def sortDescBy {α : Type} (key : α → ℚ) : List α → List α
  | [] => []
  | x :: xs => insertDescBy key x (sortDescBy key xs)

/-- The `while i < len(debtors) and j < len(creditors)` loop of
`simplify_debts`, with explicit fuel.  The loop settles
`amount = min(debtor, creditor)` between the two heads, emits a transaction
when the settled amount exceeds 0.01, decrements both remaining amounts and
advances each cursor whose remaining amount dropped below 0.01.  The branch on
`d.amount ≤ c.amount` makes the cursor advancement explicit: the side
achieving the minimum drops to exactly 0 < 0.01 and therefore always
advances, while the other side advances exactly when its remainder is < 0.01
— the same advancement the Python code performs. -/
def settleLoopF : ℕ → List Person → List Person → List Txn
  | _, [], _ => []
  | _, _ :: _, [] => []
  | 0, _ :: _, _ :: _ => []
  | fuel + 1, d :: ds, c :: cs =>
    let amount := min d.amount c.amount
    let emitted : List Txn :=
      if (1 : ℚ)/100 < amount then
        [{ src := d.username, dst := c.username, amount := round2 amount }]
      else []
    if d.amount ≤ c.amount then
      -- amount = d.amount: the debtor's remainder is 0, the debtor cursor advances.
      emitted ++ (if c.amount - amount < 1/100 then settleLoopF fuel ds cs
                  else settleLoopF fuel ds ({ username := c.username, amount := c.amount - amount } :: cs))
    else
      -- amount = c.amount: the creditor's remainder is 0, the creditor cursor advances.
      emitted ++ (if d.amount - amount < 1/100 then settleLoopF fuel ds cs
                  else settleLoopF fuel ({ username := d.username, amount := d.amount - amount } :: ds) cs)

/-- The greedy settle loop applied with sufficient fuel: since every iteration
advances at least one cursor, `ds.length + cs.length` iterations always
suffice (`settleLoopF_congr`). -/
def settleLoop (ds cs : List Person) : List Txn :=
  settleLoopF (ds.length + cs.length) ds cs

/-- The creditor partition of `simplify_debts`: entries with balance > 0.01,
kept in dict-iteration (insertion) order, amount stored as is. -/
def toCreditors (balances : List (String × ℚ)) : List Person :=
  (balances.filter (fun p => decide ((1 : ℚ)/100 < p.2))).map
    (fun p => { username := p.1, amount := p.2 })

/-- The debtor partition of `simplify_debts`: entries with balance < -0.01,
amount stored as the positive magnitude. -/
def toDebtors (balances : List (String × ℚ)) : List Person :=
  (balances.filter (fun p => decide (p.2 < -(1/100 : ℚ)))).map
    (fun p => { username := p.1, amount := -p.2 })

/-- `simplify_debts(balances)` of src/tests/test_simplify_debts.py (the same
algorithm as `_simplify_debts` in src/bot/bot.py and `simplify_group_debts` in
src/fastapi_backend.py): partition into creditors/debtors, sort both lists
descending by amount (Python's stable sort), then run the greedy loop.
The input dict is modelled as an association list in insertion order. -/
def simplify_debts (balances : List (String × ℚ)) : List Txn :=
  settleLoop (sortDescBy Person.amount (toDebtors balances))
    (sortDescBy Person.amount (toCreditors balances))

/-- Application of one emitted transaction to a balance map, exactly as the
claims and the verification step of src/tests/test_simplify_debts.py state it:
the debtor's (`src`) balance increases by the amount, the creditor's (`dst`)
balance decreases by it. -/
def applyTxn (balances : List (String × ℚ)) (t : Txn) : List (String × ℚ) :=
  balances.map (fun p =>
    (p.1, p.2 + (if p.1 = t.src then t.amount else 0) - (if p.1 = t.dst then t.amount else 0)))

/-- Application of a transaction sequence, in order, to a balance map. -/
def applyTxns (balances : List (String × ℚ)) (ts : List Txn) : List (String × ℚ) :=
  ts.foldl applyTxn balances

/-- The result of the settle loop does not depend on the fuel, as long as the
fuel is at least `ds.length + cs.length`: every iteration removes at least one
element from one of the two lists.  This justifies the fuel in `settleLoop`:
it behaves exactly like the unbounded Python `while` loop. -/
theorem settleLoopF_congr :
    ∀ (f f' : ℕ) (ds cs : List Person),
      ds.length + cs.length ≤ f → ds.length + cs.length ≤ f' →
      settleLoopF f ds cs = settleLoopF f' ds cs := by
  intro f
  induction f with
  | zero =>
    intro f' ds cs h _
    match ds, cs with
    | [], _ => cases f' <;> rfl
    | _ :: _, [] => cases f' <;> rfl
    | _ :: _, _ :: _ => simp at h
  | succ g ih =>
    intro f' ds cs h h'
    match ds, cs with
    | [], _ => cases f' <;> rfl
    | _ :: _, [] => cases f' <;> rfl
    | d :: ds, c :: cs =>
      match f', h' with
      | g' + 1, h' =>
        simp only [settleLoopF]
        simp only [List.length_cons] at h h'
        by_cases hdc : d.amount ≤ c.amount
        · simp only [if_pos hdc]
          by_cases hc : c.amount - min d.amount c.amount < 1/100
          · simp only [if_pos hc]
            rw [ih g' ds cs (by omega) (by omega)]
          · simp only [if_neg hc]
            rw [ih g' ds _ (by simp; omega) (by simp; omega)]
        · simp only [if_neg hdc]
          by_cases hd : d.amount - min d.amount c.amount < 1/100
          · simp only [if_pos hd]
            rw [ih g' ds cs (by omega) (by omega)]
          · simp only [if_neg hd]
            rw [ih g' _ cs (by simp; omega) (by simp; omega)]

/-- The concrete balance map refuting claim C1: positive entries and negative
entries both total exactly 2.018, yet the greedy loop silently absorbs each
debtor's sub-tolerance residual (0.009) and never reaches the creditor "e". -/
def c1Balances : List (String × ℚ) :=
  [("a", 1), ("b", 1), ("e", 9/500), ("c", -(1009/1000)), ("d", -(1009/1000))]

unseal Rat.add Rat.mul Rat.sub Rat.inv in
/-- C1: the simplifier post-condition fails on the code.  On `c1Balances` the
positive and negative entries sum to the same total (2.018 each, so the
claim's hypothesis holds exactly), the code emits `[c→a 1.00, d→b 1.00]`, and
applying every emitted transaction leaves the balance of "e" at 0.018, which
is not within 0.01 of zero.  The verification step of
src/tests/test_simplify_debts.py itself brands such a leftover an error, so
the claim (and spec §4.3 step 4) states the intent and the code violates it. -/
theorem c1_simplifier_leaves_unsettled_balance :
    ((c1Balances.filter (fun p => decide (0 < p.2))).map Prod.snd).sum =
      ((c1Balances.filter (fun p => decide (p.2 < 0))).map (fun p => -p.2)).sum ∧
    simplify_debts c1Balances =
      [{ src := "c", dst := "a", amount := 1 }, { src := "d", dst := "b", amount := 1 }] ∧
    (applyTxns c1Balances (simplify_debts c1Balances)).lookup "e" = some (9/500) ∧
    ¬ (|(9 : ℚ)/500| ≤ 1/100) := by
  decide

/-- The balance map of spec scenario 2 (claim C3). -/
def c3Balances : List (String × ℚ) := [("alice", 150), ("bob", -50), ("charlie", -100)]

unseal Rat.add Rat.mul Rat.sub Rat.inv in
/-- C3 counterexample: the code does not return the transactions in the order
`bob→alice 50, charlie→alice 100` claimed; debtors are sorted descending by
amount, so charlie (100) is settled first. -/
theorem c3_counterexample :
    simplify_debts c3Balances ≠
      [{ src := "bob", dst := "alice", amount := 50 },
       { src := "charlie", dst := "alice", amount := 100 }] := by
  decide

unseal Rat.add Rat.mul Rat.sub Rat.inv in
/-- C3 amended: on `{alice: 150, bob: -50, charlie: -100}` the simplifier
returns exactly the two transactions `charlie→alice 100` and `bob→alice 50`,
in that order (largest debtor first). -/
theorem c3_amended_scenario2 :
    simplify_debts c3Balances =
      [{ src := "charlie", dst := "alice", amount := 100 },
       { src := "bob", dst := "alice", amount := 50 }] := by
  decide

/-- Every iteration of the settle loop emits at most one transaction and
consumes at least one list head, so the output length is bounded by
`debtors + creditors - 1` for every fuel value. -/
theorem settleLoopF_length :
    ∀ (f : ℕ) (ds cs : List Person),
      (settleLoopF f ds cs).length ≤ ds.length + cs.length - 1 := by
  intro f
  induction f with
  | zero =>
    intro ds cs
    match ds, cs with
    | [], _ => simp [settleLoopF]
    | _ :: _, [] => simp [settleLoopF]
    | _ :: _, _ :: _ => simp [settleLoopF]
  | succ g ih =>
    intro ds cs
    match ds, cs with
    | [], _ => simp [settleLoopF]
    | _ :: _, [] => simp [settleLoopF]
    | d :: ds, c :: cs =>
      simp only [settleLoopF, List.length_cons]
      by_cases hdc : d.amount ≤ c.amount
      · simp only [if_pos hdc]
        by_cases hc : c.amount - min d.amount c.amount < 1/100
        · simp only [if_pos hc]
          have h1 := ih ds cs
          by_cases he : (1 : ℚ)/100 < min d.amount c.amount
          · simp only [if_pos he, List.length_append, List.length_cons, List.length_nil]
            omega
          · simp only [if_neg he, List.nil_append]
            omega
        · simp only [if_neg hc]
          have h1 := ih ds ({ username := c.username, amount := c.amount - min d.amount c.amount } :: cs)
          simp only [List.length_cons] at h1
          by_cases he : (1 : ℚ)/100 < min d.amount c.amount
          · simp only [if_pos he, List.length_append, List.length_cons, List.length_nil]
            omega
          · simp only [if_neg he, List.nil_append]
            omega
      · simp only [if_neg hdc]
        by_cases hd : d.amount - min d.amount c.amount < 1/100
        · simp only [if_pos hd]
          have h1 := ih ds cs
          by_cases he : (1 : ℚ)/100 < min d.amount c.amount
          · simp only [if_pos he, List.length_append, List.length_cons, List.length_nil]
            omega
          · simp only [if_neg he, List.nil_append]
            omega
        · simp only [if_neg hd]
          have h1 := ih ({ username := d.username, amount := d.amount - min d.amount c.amount } :: ds) cs
          simp only [List.length_cons] at h1
          by_cases he : (1 : ℚ)/100 < min d.amount c.amount
          · simp only [if_pos he, List.length_append, List.length_cons, List.length_nil]
            omega
          · simp only [if_neg he, List.nil_append]
            omega

/-- Length bound at the fuel used by `settleLoop`. -/
theorem settleLoop_length (ds cs : List Person) :
    (settleLoop ds cs).length ≤ ds.length + cs.length - 1 :=
  settleLoopF_length (ds.length + cs.length) ds cs

theorem insertDescBy_length {α : Type} (key : α → ℚ) (x : α) :
    ∀ l : List α, (insertDescBy key x l).length = l.length + 1 := by
  intro l
  induction l with
  | nil => rfl
  | cons y ys ih =>
    simp only [insertDescBy]
    by_cases h : key y ≤ key x
    · simp [h]
    · simp [h, ih]

theorem sortDescBy_length {α : Type} (key : α → ℚ) :
    ∀ l : List α, (sortDescBy key l).length = l.length := by
  intro l
  induction l with
  | nil => rfl
  | cons x xs ih => simp [sortDescBy, insertDescBy_length, ih]

theorem toDebtors_length (balances : List (String × ℚ)) :
    (toDebtors balances).length = balances.countP (fun p => decide (p.2 < -(1/100 : ℚ))) := by
  simp [toDebtors, List.countP_eq_length_filter]

theorem toCreditors_length (balances : List (String × ℚ)) :
    (toCreditors balances).length = balances.countP (fun p => decide ((1 : ℚ)/100 < p.2)) := by
  simp [toCreditors, List.countP_eq_length_filter]

/-- An entry exceeds the tolerance in magnitude exactly when it is a creditor
(balance > 0.01) or a debtor (balance < -0.01), and never both. -/
theorem countP_abs_split :
    ∀ balances : List (String × ℚ),
      balances.countP (fun p => decide ((1 : ℚ)/100 < |p.2|)) =
        balances.countP (fun p => decide ((1 : ℚ)/100 < p.2)) +
          balances.countP (fun p => decide (p.2 < -(1/100 : ℚ))) := by
  have key : ∀ x : ℚ,
      (if (1 : ℚ)/100 < |x| then (1 : ℕ) else 0) =
        (if (1 : ℚ)/100 < x then (1 : ℕ) else 0) + (if x < -(1/100 : ℚ) then (1 : ℕ) else 0) := by
    intro x
    by_cases h1 : (1 : ℚ)/100 < x <;> by_cases h2 : x < -(1/100 : ℚ)
    · exfalso; linarith
    · rw [if_pos h1, if_neg h2, if_pos (by rw [abs_of_pos (by linarith)]; exact h1)]
    · rw [if_neg h1, if_pos h2, if_pos (by rw [abs_of_neg (by linarith)]; linarith)]
    · rw [if_neg h1, if_neg h2, if_neg (by rw [not_lt, abs_le]; constructor <;> linarith)]
  intro balances
  induction balances with
  | nil => rfl
  | cons a l ih =>
    simp only [List.countP_cons, decide_eq_true_eq, ih]
    have := key a.2
    omega

/-- C4 confirmed: the number of transactions emitted by `simplify_debts` never
exceeds the number of balance entries whose magnitude exceeds the 0.01
tolerance, minus 1 (natural-number subtraction, so in particular a map with no
such entry yields the empty sequence). -/
theorem c4_transaction_bound (balances : List (String × ℚ)) :
    (simplify_debts balances).length ≤
      balances.countP (fun p => decide ((1 : ℚ)/100 < |p.2|)) - 1 := by
  have h := settleLoop_length (sortDescBy Person.amount (toDebtors balances))
    (sortDescBy Person.amount (toCreditors balances))
  rw [sortDescBy_length, sortDescBy_length, toDebtors_length, toCreditors_length] at h
  unfold simplify_debts
  rw [countP_abs_split]
  omega

/-- A stored split row (`Split` of src/database/models.py): the participant,
the amount they paid and the amount they owe.  The `is_settled` flag and the
ids are irrelevant to every claim and omitted. -/
structure SplitRec where
  user : String
  paid : ℚ
  owed : ℚ
deriving DecidableEq, Repr

/-- `ExpenseParticipant` of src/bot/bot.py: a username and an optional paid
amount (`None` when the message did not specify one). -/
structure Participant where
  username : String
  paid : Option ℚ
deriving DecidableEq, Repr

/-- `ExpenseData` of src/bot/bot.py (the description field is irrelevant to
every claim and omitted). -/
structure ExpenseData where
  total_amount : ℚ
  participants : List Participant
  is_equal_split : Bool
deriving DecidableEq, Repr

/-- The error taxonomy of spec §4.1 for the validation failures raised by the
pydantic validators and `_create_expense`. -/
inductive RecordError where
  | nonPositiveAmount
  | insufficientParticipants
  | participantNotMember
  | amountMismatch
deriving DecidableEq, Repr

/-- `total_paid = sum(p.paid for p in expense_data.participants if p.paid is
not None)` of `_create_expense` (src/bot/bot.py line 651). -/
def paidSum (e : ExpenseData) : ℚ := (e.participants.filterMap Participant.paid).sum

/-- The split rows `_create_expense` persists (src/bot/bot.py lines 665-685):
`equal_share = total_amount / num_participants`; for an equal split every
participant's paid amount is the equal share, otherwise it is
`participant.paid or 0` (`None` is stored as 0, which is value-equal to
`Option.getD 0`); the owed amount is always the equal share. -/
def mkSplits (e : ExpenseData) : List SplitRec :=
  let equal_share := e.total_amount / (e.participants.length : ℚ)
  e.participants.map (fun p =>
    { user := p.username,
      paid := if e.is_equal_split then equal_share else p.paid.getD 0,
      owed := equal_share })

/-- The full `recordExpense` pipeline of spec §4.1 as the code implements it:
the pydantic field validators of `ExpenseData` (amount > 0 first, then ≥ 2
participants, in model field order), the group-membership check of
`_create_expense` (src/bot/bot.py lines 553-647), the unequal-split amount
reconciliation (lines 649-653, tolerance 0.01), and on success the persisted
split rows.  All failures happen before anything is persisted (`db.add` is
only reached after every check), which the `Except` result models: an error
carries no splits. -/
def recordExpense (members : List String) (e : ExpenseData) : Except RecordError (List SplitRec) :=
  if e.total_amount ≤ 0 then .error .nonPositiveAmount
  else if e.participants.length < 2 then .error .insufficientParticipants
  else if ∃ p ∈ e.participants, p.username ∉ members then .error .participantNotMember
  else if e.is_equal_split = false ∧ (1 : ℚ)/100 < |paidSum e - e.total_amount| then
    .error .amountMismatch
  else .ok (mkSplits e)

deriving instance DecidableEq for Except

/-- The unequal-split expense of claim C7: one participant's paid amount is
missing (`None`). -/
def c7Expense : ExpenseData :=
  { total_amount := 200,
    participants := [{ username := "me", paid := some 200 },
                     { username := "user1", paid := none }],
    is_equal_split := false }

unseal Rat.add Rat.mul Rat.sub Rat.inv in
/-- C7: the code does not reject an unequal split with a missing (`None`) paid
amount.  `_create_expense` sums only the non-`None` paid amounts, so with
total 200 and paid amounts [200, None] the reconciliation check passes and the
expense is recorded with the missing amount stored as 0 — although the spec
requires every participant to supply a non-null paid amount and
src/tests/test_validation.py (TEST CASE 3) rejects exactly this shape of
input. -/
theorem c7_missing_paid_is_recorded :
    recordExpense ["me", "user1"] c7Expense =
      Except.ok [{ user := "me", paid := 200, owed := 100 },
                 { user := "user1", paid := 0, owed := 100 }] := by
  decide

/-- Sum of a constant-valued map. -/
theorem sum_map_const_rat {α : Type} (l : List α) (c : ℚ) :
    (l.map (fun _ => c)).sum = (l.length : ℚ) * c := by
  induction l with
  | nil => simp
  | cons a t ih =>
    simp only [List.map_cons, List.sum_cons, List.length_cons, ih]
    push_cast
    ring

/-- C5: every successful `recordExpense` produces splits whose owed amount is
`total / count` regardless of the split mode, whose paid amount is also
`total / count` when the split is equal, and whose owed amounts sum exactly to
the total (hence within the 0.01 tolerance). -/
theorem c5_equal_owed_shares (members : List String) (e : ExpenseData) (splits : List SplitRec)
    (h : recordExpense members e = Except.ok splits) :
    (∀ s ∈ splits, s.owed = e.total_amount / (e.participants.length : ℚ)) ∧
    (e.is_equal_split = true →
      ∀ s ∈ splits, s.paid = e.total_amount / (e.participants.length : ℚ)) ∧
    (splits.map SplitRec.owed).sum = e.total_amount ∧
    |(splits.map SplitRec.owed).sum - e.total_amount| ≤ 1/100 := by
  unfold recordExpense at h
  split_ifs at h with h1 h2 h3 h4
  have hsplits : splits = mkSplits e := by
    cases h
    rfl
  subst hsplits
  have hlen : 2 ≤ e.participants.length := not_lt.mp h2
  have hn : (e.participants.length : ℚ) ≠ 0 := Nat.cast_ne_zero.mpr (by omega)
  have howed : ((mkSplits e).map SplitRec.owed).sum = e.total_amount := by
    simp only [mkSplits, List.map_map]
    have h5 : (SplitRec.owed ∘ fun p : Participant =>
        ({ user := p.username,
           paid := if e.is_equal_split then e.total_amount / (e.participants.length : ℚ)
                   else p.paid.getD 0,
           owed := e.total_amount / (e.participants.length : ℚ) } : SplitRec)) =
        fun _ => e.total_amount / (e.participants.length : ℚ) := rfl
    rw [h5, sum_map_const_rat, mul_comm, div_mul_cancel₀ _ hn]
  refine ⟨?_, ?_, howed, ?_⟩
  · intro s hs
    simp only [mkSplits, List.mem_map] at hs
    obtain ⟨p, _, rfl⟩ := hs
    rfl
  · intro heq s hs
    simp only [mkSplits, List.mem_map] at hs
    obtain ⟨p, _, rfl⟩ := hs
    simp [heq]
  · rw [howed]
    simp

/-- Spec scenario 4: `recordExpense(total=500, participants=[me(paid=200),
user1(paid=300)], isEqualSplit=false)`. -/
def sc4Expense : ExpenseData :=
  { total_amount := 500,
    participants := [{ username := "me", paid := some 200 },
                     { username := "user1", paid := some 300 }],
    is_equal_split := false }

/-- The split rows scenario 4 persists. -/
def sc4Splits : List SplitRec :=
  [{ user := "me", paid := 200, owed := 250 },
   { user := "user1", paid := 300, owed := 250 }]

unseal Rat.add Rat.mul Rat.sub Rat.inv in
/-- Witness for C5 at spec scenario 4: the call succeeds, each owed share is
250, and the owed amounts sum to the 500 total. -/
theorem c5_equal_owed_shares_witness :
    recordExpense ["me", "user1"] sc4Expense = Except.ok sc4Splits ∧
    (sc4Splits.map SplitRec.owed).sum = sc4Expense.total_amount ∧
    |(sc4Splits.map SplitRec.owed).sum - sc4Expense.total_amount| ≤ 1/100 :=
  ⟨by decide,
    (c5_equal_owed_shares ["me", "user1"] sc4Expense sc4Splits (by decide)).2.2.1,
    (c5_equal_owed_shares ["me", "user1"] sc4Expense sc4Splits (by decide)).2.2.2⟩

/-- The C6 counterexample input: a single participant who is a valid group
member, with a paid amount that does not match the total. -/
def c6Input : ExpenseData :=
  { total_amount := 500,
    participants := [{ username := "me", paid := some 200 }],
    is_equal_split := false }

unseal Rat.add Rat.mul Rat.sub Rat.inv in
/-- C6 counterexample: an unequal-split call whose participants are all valid
group members can fail with an error other than `AmountMismatch` even though
the supplied paid amounts differ from the total by more than 0.01 — here the
pydantic participant validator rejects the single-participant list first.
This falsifies the claimed "fails with AmountMismatch if and only if" at this
input. -/
theorem c6_counterexample :
    recordExpense ["me"] c6Input = Except.error RecordError.insufficientParticipants ∧
    (1 : ℚ)/100 < |paidSum c6Input - c6Input.total_amount| := by
  decide

/-- C6 amended: for an unequal-split call with at least two participants, a
positive total, and all participants valid group members, the call fails with
`AmountMismatch` exactly when the supplied paid amounts differ from the total
by more than 0.01 (and on that failure no split rows are produced: the error
is raised in `_create_expense` before any `db.add`). -/
theorem c6_amount_mismatch_iff (members : List String) (e : ExpenseData)
    (heq : e.is_equal_split = false) (hlen : 2 ≤ e.participants.length)
    (hpos : 0 < e.total_amount) (hmem : ∀ p ∈ e.participants, p.username ∈ members) :
    recordExpense members e = Except.error RecordError.amountMismatch ↔
      (1 : ℚ)/100 < |paidSum e - e.total_amount| := by
  unfold recordExpense
  rw [if_neg (not_le.mpr hpos), if_neg (not_lt.mpr hlen),
    if_neg (by push_neg; exact hmem)]
  by_cases h5 : (1 : ℚ)/100 < |paidSum e - e.total_amount|
  · rw [if_pos ⟨heq, h5⟩]
    exact iff_of_true rfl h5
  · rw [if_neg (fun hc => h5 hc.2)]
    exact iff_of_false (by simp) h5

/-- Spec scenario 5: `recordExpense(total=500, participants=[me(paid=200),
user1(paid=250)], isEqualSplit=false)`. -/
def sc5Expense : ExpenseData :=
  { total_amount := 500,
    participants := [{ username := "me", paid := some 200 },
                     { username := "user1", paid := some 250 }],
    is_equal_split := false }

unseal Rat.add Rat.mul Rat.sub Rat.inv in
/-- Witness for the amended C6 at spec scenario 5: 200 + 250 = 450 misses the
total 500 by more than 0.01, so the call fails with `AmountMismatch`. -/
theorem c6_amount_mismatch_iff_witness :
    recordExpense ["me", "user1"] sc5Expense = Except.error RecordError.amountMismatch :=
  (c6_amount_mismatch_iff ["me", "user1"] sc5Expense (by decide) (by decide) (by decide)
    (by decide)).mpr (by decide)

/-- All split rows stored for a ledger of successfully recorded expenses (each
successful `recordExpense` persists exactly `mkSplits`). -/
def allSplits (ledger : List ExpenseData) : List SplitRec :=
  (ledger.map mkSplits).flatten

/-- The net balance of one user over a ledger, exactly as `_simplify_debts`
(src/bot/bot.py lines 200-208) accumulates it: the sum of
`paid_amount - owed_amount` over the user's splits. -/
def userNet (u : String) (ledger : List ExpenseData) : ℚ :=
  (((allSplits ledger).filter (fun s => s.user == u)).map (fun s => s.paid - s.owed)).sum

/-- Pointwise sum of two mapped functions. -/
theorem sum_map_add_rat {α : Type} (g h : α → ℚ) :
    ∀ l : List α, (l.map (fun a => g a + h a)).sum = (l.map g).sum + (l.map h).sum := by
  intro l
  induction l with
  | nil => simp
  | cons a t ih =>
    simp only [List.map_cons, List.sum_cons, ih]
    ring

/-- Summing an indicator supported outside the list gives 0. -/
theorem sum_if_not_mem (c : ℚ) :
    ∀ (us : List String) (a : String), a ∉ us →
      (us.map (fun u => if a = u then c else 0)).sum = 0 := by
  intro us
  induction us with
  | nil => simp
  | cons v vs ih =>
    intro a ha
    have h1 : a ≠ v := fun h => ha (h ▸ List.mem_cons_self v vs)
    have h2 : a ∉ vs := fun h => ha (List.mem_cons_of_mem v h)
    simp only [List.map_cons, List.sum_cons, if_neg h1, ih a h2, add_zero]

/-- Summing an indicator over a duplicate-free list containing its support
gives the indicated value. -/
theorem sum_if_single (c : ℚ) :
    ∀ (us : List String) (a : String), us.Nodup → a ∈ us →
      (us.map (fun u => if a = u then c else 0)).sum = c := by
  intro us
  induction us with
  | nil => intro a _ ha; cases ha
  | cons v vs ih =>
    intro a hnd ha
    rcases List.mem_cons.mp ha with h | h
    · subst h
      simp only [List.map_cons, List.sum_cons]
      rw [if_pos trivial, sum_if_not_mem c vs a (List.nodup_cons.mp hnd).1, add_zero]
    · have hne : a ≠ v := fun hav => (List.nodup_cons.mp hnd).1 (hav ▸ h)
      simp only [List.map_cons, List.sum_cons, if_neg hne]
      rw [ih a (List.nodup_cons.mp hnd).2 h, zero_add]

/-- Summing per-user filtered sums over a duplicate-free user list covering
every split's user equals summing over all splits: per-user net balances
aggregate to the whole-ledger aggregate. -/
theorem sum_userNet_partition (f : SplitRec → ℚ) :
    ∀ (xs : List SplitRec) (us : List String), us.Nodup → (∀ x ∈ xs, x.user ∈ us) →
      (us.map (fun u => ((xs.filter (fun s => s.user == u)).map f).sum)).sum = (xs.map f).sum := by
  intro xs
  induction xs with
  | nil => intro us _ _; simp
  | cons x xs ih =>
    intro us hnd hcov
    have step : ∀ u : String,
        (((x :: xs).filter (fun s => s.user == u)).map f).sum =
          (if x.user = u then f x else 0) + ((xs.filter (fun s => s.user == u)).map f).sum := by
      intro u
      by_cases h : x.user = u
      · simp [List.filter_cons, h]
      · simp [List.filter_cons, h]
    calc (us.map (fun u => (((x :: xs).filter (fun s => s.user == u)).map f).sum)).sum
        = (us.map (fun u =>
            (if x.user = u then f x else 0) + ((xs.filter (fun s => s.user == u)).map f).sum)).sum := by
          exact congrArg List.sum (List.map_congr_left (fun u _ => step u))
      _ = (us.map (fun u => if x.user = u then f x else 0)).sum +
            (us.map (fun u => ((xs.filter (fun s => s.user == u)).map f).sum)).sum :=
          sum_map_add_rat _ _ us
      _ = f x + (xs.map f).sum := by
          rw [sum_if_single (f x) us x.user hnd (hcov x (List.mem_cons_self x xs)),
            ih us hnd (fun y hy => hcov y (List.mem_cons_of_mem x hy))]
      _ = ((x :: xs).map f).sum := by simp

/-- Pointwise difference of two mapped functions. -/
theorem sum_map_sub_rat {α : Type} (g h : α → ℚ) :
    ∀ l : List α, (l.map (fun a => g a - h a)).sum = (l.map g).sum - (l.map h).sum := by
  intro l
  induction l with
  | nil => simp
  | cons a t ih =>
    simp only [List.map_cons, List.sum_cons, ih]
    ring

/-- Storing `participant.paid or 0` sums to the same value as summing the
non-`None` paid amounts (the quantity `_create_expense` validates). -/
theorem sum_getD_paid :
    ∀ ps : List Participant,
      (ps.map (fun p => p.paid.getD 0)).sum = (ps.filterMap Participant.paid).sum := by
  intro ps
  induction ps with
  | nil => rfl
  | cons p t ih =>
    cases hp : p.paid <;>
      simp [List.filterMap_cons, hp, ih]

/-- Per-expense conservation up to the validation tolerance: a successfully
recorded expense's splits have `sum(paid) - sum(owed)` within 0.01 of zero
(equal split: exactly zero; unequal split: the reconciliation check of
`_create_expense` bounds the deviation by 0.01). -/
theorem recordExpense_expense_net (members : List String) (e : ExpenseData)
    (h : (recordExpense members e).isOk = true) :
    |((mkSplits e).map (fun s => s.paid - s.owed)).sum| ≤ 1/100 := by
  unfold recordExpense at h
  split_ifs at h with h1 h2 h3 h4 <;> simp [Except.isOk, Except.toBool] at h
  have hlen : 2 ≤ e.participants.length := not_lt.mp h2
  have hn : (e.participants.length : ℚ) ≠ 0 := Nat.cast_ne_zero.mpr (by omega)
  rw [sum_map_sub_rat]
  have howed : ((mkSplits e).map SplitRec.owed).sum = e.total_amount := by
    simp only [mkSplits, List.map_map]
    have h5 : (SplitRec.owed ∘ fun p : Participant =>
        ({ user := p.username,
           paid := if e.is_equal_split then e.total_amount / (e.participants.length : ℚ)
                   else p.paid.getD 0,
           owed := e.total_amount / (e.participants.length : ℚ) } : SplitRec)) =
        fun _ => e.total_amount / (e.participants.length : ℚ) := rfl
    rw [h5, sum_map_const_rat, mul_comm, div_mul_cancel₀ _ hn]
  rw [howed]
  cases heq : e.is_equal_split with
  | true =>
    have hpaid : ((mkSplits e).map SplitRec.paid).sum = e.total_amount := by
      simp only [mkSplits, List.map_map]
      have h5 : (SplitRec.paid ∘ fun p : Participant =>
          ({ user := p.username,
             paid := if e.is_equal_split then e.total_amount / (e.participants.length : ℚ)
                     else p.paid.getD 0,
             owed := e.total_amount / (e.participants.length : ℚ) } : SplitRec)) =
          fun p : Participant =>
            if e.is_equal_split then e.total_amount / (e.participants.length : ℚ)
            else p.paid.getD 0 := rfl
      rw [h5]
      simp only [heq, if_true]
      rw [sum_map_const_rat, mul_comm, div_mul_cancel₀ _ hn]
    rw [hpaid]
    simp
  | false =>
    have hpaid : ((mkSplits e).map SplitRec.paid).sum = paidSum e := by
      simp only [mkSplits, List.map_map]
      have h5 : (SplitRec.paid ∘ fun p : Participant =>
          ({ user := p.username,
             paid := if e.is_equal_split then e.total_amount / (e.participants.length : ℚ)
                     else p.paid.getD 0,
             owed := e.total_amount / (e.participants.length : ℚ) } : SplitRec)) =
          fun p : Participant =>
            if e.is_equal_split then e.total_amount / (e.participants.length : ℚ)
            else p.paid.getD 0 := rfl
      rw [h5]
      simp only [heq, if_false]
      exact sum_getD_paid e.participants
    rw [hpaid]
    have : ¬ ((1 : ℚ)/100 < |paidSum e - e.total_amount|) := fun hm => h4 ⟨heq, hm⟩
    linarith [not_lt.mp this]

/-- Summing a mapped function over a concatenation of lists equals summing
the per-list sums. -/
theorem sum_join_map (f : SplitRec → ℚ) :
    ∀ L : List (List SplitRec),
      ((L.flatten).map f).sum = (L.map (fun l => (l.map f).sum)).sum := by
  intro L
  induction L with
  | nil => simp
  | cons a t ih =>
    simp only [List.flatten_cons, List.map_append, List.sum_append, List.map_cons, List.sum_cons, ih]

/-- Triangle inequality over a ledger: if every expense's net deviation is at
most 0.01, the ledger total deviates by at most 0.01 per expense. -/
theorem abs_sum_le_card_div_100 (g : ExpenseData → ℚ) :
    ∀ L : List ExpenseData, (∀ e ∈ L, |g e| ≤ 1/100) →
      |(L.map g).sum| ≤ (L.length : ℚ)/100 := by
  intro L
  induction L with
  | nil => simp
  | cons a l ih =>
    intro hb
    have h1 := hb a (List.mem_cons_self a l)
    have h2 := ih (fun e he => hb e (List.mem_cons_of_mem a he))
    simp only [List.map_cons, List.sum_cons, List.length_cons]
    calc |g a + (l.map g).sum| ≤ |g a| + |(l.map g).sum| := abs_add _ _
      _ ≤ 1/100 + (l.length : ℚ)/100 := by linarith
      _ = ((l.length + 1 : ℕ) : ℚ)/100 := by push_cast; ring

/-- C2 amended: over a ledger of expenses each successfully recorded with the
same member list, the per-user net balances, summed across any duplicate-free
list of users covering every split's user, total at most 0.01 per expense in
magnitude (0.01 × number of expenses, not the flat 0.01 the claim states:
each unequal-split expense may individually deviate by up to the 0.01
validation tolerance, and the deviations add up). -/
theorem c2_conservation_per_expense (members : List String) (ledger : List ExpenseData)
    (us : List String)
    (hok : ∀ e ∈ ledger, (recordExpense members e).isOk = true)
    (hnd : us.Nodup)
    (hcov : ∀ s ∈ allSplits ledger, s.user ∈ us) :
    |(us.map (fun u => userNet u ledger)).sum| ≤ (ledger.length : ℚ)/100 := by
  have hpart :
      (us.map (fun u => userNet u ledger)).sum =
        ((allSplits ledger).map (fun s => s.paid - s.owed)).sum := by
    unfold userNet
    exact sum_userNet_partition (fun s => s.paid - s.owed) (allSplits ledger) us hnd hcov
  have hjoin :
      ((allSplits ledger).map (fun s => s.paid - s.owed)).sum =
        (ledger.map (fun e => ((mkSplits e).map (fun s => s.paid - s.owed)).sum)).sum := by
    unfold allSplits
    rw [sum_join_map, List.map_map]
    rfl
  rw [hpart, hjoin]
  apply abs_sum_le_card_div_100
  intro e he
  exact recordExpense_expense_net members e (hok e he)

/-- The C2 counterexample expense: an unequal split whose paid amounts overpay
the total by exactly the 0.01 validation tolerance, so it records
successfully while contributing a +0.01 net imbalance. -/
def c2Expense : ExpenseData :=
  { total_amount := 10,
    participants := [{ username := "x", paid := some 5 },
                     { username := "y", paid := some (501/100) }],
    is_equal_split := false }

unseal Rat.add Rat.mul Rat.sub Rat.inv in
/-- C2 counterexample: two copies of `c2Expense` each record successfully, yet
the per-user net balances over users x and y sum to 0.02, outside the claimed
flat 0.01 tolerance — the per-expense tolerance accumulates. -/
theorem c2_counterexample :
    (recordExpense ["x", "y"] c2Expense).isOk = true ∧
    (["x", "y"].map (fun u => userNet u [c2Expense, c2Expense])).sum = 1/50 ∧
    ¬ (|(1 : ℚ)/50| ≤ 1/100) := by
  decide

unseal Rat.add Rat.mul Rat.sub Rat.inv in
/-- Witness for the amended C2 on a one-expense ledger: the net balances of x
and y sum to at most 0.01 in magnitude. -/
theorem c2_conservation_per_expense_witness :
    |(["x", "y"].map (fun u => userNet u [c2Expense])).sum| ≤
      (([c2Expense] : List ExpenseData).length : ℚ)/100 :=
  c2_conservation_per_expense ["x", "y"] [c2Expense] ["x", "y"]
    (by decide) (by decide) (by decide)

/-- A stored expense as `_calculate_user_balances` sees it: the list of its
split rows (`expense.splits`).  Amount/description/ids play no role in the
balance computation. -/
structure ExpenseRec where
  splits : List SplitRec
deriving DecidableEq, Repr

/-- `user_paid = next((s.paid_amount for s in expense.splits if s.user_id ==
user_id), 0)` of src/bot/bot.py line 173: the paid amount of the user's first
split in the expense, defaulting to 0. -/
def userPaidIn (u : String) (e : ExpenseRec) : ℚ :=
  ((e.splits.find? (fun s => s.user == u)).map SplitRec.paid).getD 0

/-- The user's owed amount in an expense (their first split's owed amount,
defaulting to 0), the quantity the spec formula subtracts. -/
def userOwedIn (u : String) (e : ExpenseRec) : ℚ :=
  ((e.splits.find? (fun s => s.user == u)).map SplitRec.owed).getD 0

/-- The accumulated balance of user `u` against user `w`, exactly as the
nested loops of `_calculate_user_balances` (src/bot/bot.py lines 170-186)
compute it: for each of `u`'s splits in each expense, for each other
participant's split whose user is `w`, add
`(user_paid - split.owed_amount) / (len(expense.splits) - 1)`.
The Python dict keyed by username is modelled as this total function (the
dict's zero-default accumulation per §9 of the spec); a user never
encountered accumulates 0. -/
def balancesFun (u : String) (es : List ExpenseRec) (w : String) : ℚ :=
  (es.map (fun e =>
    ((e.splits.filter (fun s => s.user == u)).map (fun s =>
      ((e.splits.filter (fun t => t.user != u && t.user == w)).map (fun _ =>
        (userPaidIn u e - s.owed) / ((e.splits.length : ℚ) - 1))).sum)).sum)).sum

/-- The map `_calculate_user_balances` returns: the accumulated value per
other user, with every entry of magnitude ≤ 0.01 dropped
(`{k: v for k, v in balances.items() if abs(v) > 0.01}`, line 188). -/
def calcUserBalances (u : String) (es : List ExpenseRec) (w : String) : Option ℚ :=
  if (1 : ℚ)/100 < |balancesFun u es w| then some (balancesFun u es w) else none

/-- The pairwise-balance formula in the spec's words (§4.2): for each expense
shared by the querying user `u` and the other user `w`, attribute
`(paid - owed) / (participantCount - 1)` of `u`'s net contribution to `w`,
accumulated across all shared expenses. -/
def pairwiseSpec (u : String) (es : List ExpenseRec) (w : String) : ℚ :=
  ((es.filter (fun e =>
      e.splits.any (fun s => s.user == u) && e.splits.any (fun t => t.user == w) && w != u)).map
    (fun e => (userPaidIn u e - userOwedIn u e) / ((e.splits.length : ℚ) - 1))).sum

/-- A filter keeping a key no split carries returns nothing. -/
theorem filter_user_eq_nil (xs : List SplitRec) (p : SplitRec → Bool)
    (h : ∀ x ∈ xs, p x = false) : xs.filter p = [] := by
  induction xs with
  | nil => rfl
  | cons y ys ih =>
    rw [List.filter_cons, h y (List.mem_cons_self y ys)]
    exact ih (fun x hx => h x (List.mem_cons_of_mem y hx))

/-- With duplicate-free usernames, filtering for one user's splits returns
exactly that user's unique split. -/
theorem filter_user_singleton :
    ∀ (xs : List SplitRec) (u : String) (x : SplitRec),
      (xs.map SplitRec.user).Nodup → x ∈ xs → x.user = u →
      xs.filter (fun s => s.user == u) = [x] := by
  intro xs
  induction xs with
  | nil => intro u x _ hx; cases hx
  | cons y ys ih =>
    intro u x hnd hx hu
    have hnd1 : y.user ∉ ys.map SplitRec.user := (List.nodup_cons.mp hnd).1
    have hnd2 : (ys.map SplitRec.user).Nodup := (List.nodup_cons.mp hnd).2
    rcases List.mem_cons.mp hx with h | h
    · subst h
      rw [List.filter_cons, if_pos (by simp [hu])]
      rw [filter_user_eq_nil ys _ (fun t ht => by
        have : t.user ≠ u := fun htu =>
          hnd1 (hu ▸ htu ▸ List.mem_map_of_mem SplitRec.user ht)
        simp [this]), List.cons.injEq]
      exact ⟨rfl, rfl⟩
    · have hyne : y.user ≠ u := fun hyu =>
        hnd1 (hyu ▸ hu ▸ List.mem_map_of_mem SplitRec.user h)
      rw [List.filter_cons, if_neg (by simp [hyne])]
      exact ih u x hnd2 h hu

/-- When a filter returns a singleton, `find?` with the same predicate
returns that element. -/
theorem find?_of_filter_singleton (p : SplitRec → Bool) :
    ∀ (xs : List SplitRec) (x : SplitRec), xs.filter p = [x] → xs.find? p = some x := by
  intro xs
  induction xs with
  | nil => intro x h; cases h
  | cons y ys ih =>
    intro x h
    rw [List.filter_cons] at h
    by_cases hp : p y = true
    · rw [if_pos hp] at h
      have h1 : y = x := (List.cons.injEq _ _ _ _).mp h |>.1
      rw [List.find?_cons, hp]
      exact congrArg some h1
    · rw [if_neg hp] at h
      rw [List.find?_cons, Bool.of_not_eq_true hp]
      exact ih x h

/-- One expense's contribution to `balancesFun` collapses, under
duplicate-free usernames, to the spec's per-expense term: present exactly when
`u` and `w` (distinct) both participate, in which case the unique splits make
the code's `(user_paid - owed) / (count - 1)` equal the spec's
`(paid - owed) / (count - 1)`. -/
theorem c8_per_expense (u w : String) (e : ExpenseRec)
    (hnd : (e.splits.map SplitRec.user).Nodup) :
    ((e.splits.filter (fun s => s.user == u)).map (fun s =>
      ((e.splits.filter (fun t => t.user != u && t.user == w)).map (fun _ =>
        (userPaidIn u e - s.owed) / ((e.splits.length : ℚ) - 1))).sum)).sum =
    (if (e.splits.any (fun s => s.user == u) && e.splits.any (fun t => t.user == w) && w != u) = true
      then (userPaidIn u e - userOwedIn u e) / ((e.splits.length : ℚ) - 1) else 0) := by
  by_cases hu : ∃ x ∈ e.splits, x.user = u
  · obtain ⟨x, hx, hxu⟩ := hu
    have hfilter := filter_user_singleton e.splits u x hnd hx hxu
    have hfind : e.splits.find? (fun s => s.user == u) = some x :=
      find?_of_filter_singleton _ e.splits x hfilter
    have howed : userOwedIn u e = x.owed := by rw [userOwedIn, hfind]; rfl
    have hanyu : e.splits.any (fun s => s.user == u) = true :=
      List.any_eq_true.mpr ⟨x, hx, by simp [hxu]⟩
    rw [hfilter]
    simp only [List.map_cons, List.map_nil, List.sum_cons, List.sum_nil, add_zero]
    by_cases hw : w = u
    · subst hw
      rw [filter_user_eq_nil e.splits _ (fun t _ => by
        by_cases htw : t.user = w <;> simp [htw])]
      rw [if_neg (by simp)]
      simp
    · have hcongr : e.splits.filter (fun t => t.user != u && t.user == w) =
          e.splits.filter (fun t => t.user == w) := by
        apply List.filter_congr
        intro t _
        by_cases htw : t.user = w
        · simp [htw, hw]
        · simp [htw]
      rw [hcongr]
      by_cases hwmem : ∃ t ∈ e.splits, t.user = w
      · obtain ⟨t0, ht0, ht0w⟩ := hwmem
        rw [filter_user_singleton e.splits w t0 hnd ht0 ht0w]
        have hanyw : e.splits.any (fun t => t.user == w) = true :=
          List.any_eq_true.mpr ⟨t0, ht0, by simp [ht0w]⟩
        rw [if_pos (by rw [hanyu, hanyw]; simp [hw])]
        simp [howed]
      · push_neg at hwmem
        rw [filter_user_eq_nil e.splits _ (fun t ht => by simp [hwmem t ht])]
        have hanyw : e.splits.any (fun t => t.user == w) = false := by
          rw [List.any_eq_false]
          intro t ht
          simp [hwmem t ht]
        rw [if_neg (by rw [hanyw]; simp)]
        simp
  · push_neg at hu
    rw [filter_user_eq_nil e.splits (fun s => s.user == u) (fun x hx => by simp [hu x hx])]
    have hanyu : e.splits.any (fun s => s.user == u) = false := by
      rw [List.any_eq_false]
      intro x hx
      simp [hu x hx]
    rw [if_neg (by rw [hanyu]; simp)]
    simp

/-- Unfolding one expense from the code-side accumulation. -/
theorem balancesFun_cons (u w : String) (e : ExpenseRec) (es : List ExpenseRec) :
    balancesFun u (e :: es) w =
      ((e.splits.filter (fun s => s.user == u)).map (fun s =>
        ((e.splits.filter (fun t => t.user != u && t.user == w)).map (fun _ =>
          (userPaidIn u e - s.owed) / ((e.splits.length : ℚ) - 1))).sum)).sum +
      balancesFun u es w := by
  simp [balancesFun]

/-- Unfolding one expense from the spec-side accumulation. -/
theorem pairwiseSpec_cons (u w : String) (e : ExpenseRec) (es : List ExpenseRec) :
    pairwiseSpec u (e :: es) w =
      (if (e.splits.any (fun s => s.user == u) && e.splits.any (fun t => t.user == w) && w != u) = true
        then (userPaidIn u e - userOwedIn u e) / ((e.splits.length : ℚ) - 1) else 0) +
      pairwiseSpec u es w := by
  unfold pairwiseSpec
  rw [List.filter_cons]
  by_cases hp : (e.splits.any (fun s => s.user == u) && e.splits.any (fun t => t.user == w) && w != u) = true
  · rw [if_pos hp, if_pos hp, List.map_cons, List.sum_cons]
  · rw [if_neg hp, if_neg hp, zero_add]

/-- The code's nested-loop accumulation equals the spec formula on every
ledger whose expenses have duplicate-free participant usernames (each
participant holds one split per expense, the data-model invariant). -/
theorem balancesFun_eq_spec (u w : String) :
    ∀ es : List ExpenseRec, (∀ e ∈ es, (e.splits.map SplitRec.user).Nodup) →
      balancesFun u es w = pairwiseSpec u es w := by
  intro es
  induction es with
  | nil => intro _; rfl
  | cons e es ih =>
    intro hnd
    rw [balancesFun_cons, pairwiseSpec_cons,
      c8_per_expense u w e (hnd e (List.mem_cons_self e es)),
      ih (fun x hx => hnd x (List.mem_cons_of_mem e hx))]

/-- C8 confirmed: on any ledger whose expenses carry one split per
participant, `_calculate_user_balances` returns, for every other user, the
spec's accumulated `(paid - owed) / (participantCount - 1)` over shared
expenses, dropping every entry whose accumulated magnitude is at most 0.01. -/
theorem c8_pairwise_formula (u : String) (es : List ExpenseRec)
    (hnd : ∀ e ∈ es, (e.splits.map SplitRec.user).Nodup) (w : String) :
    calcUserBalances u es w =
      (if (1 : ℚ)/100 < |pairwiseSpec u es w| then some (pairwiseSpec u es w) else none) := by
  unfold calcUserBalances
  rw [balancesFun_eq_spec u w es hnd]

/-- The concrete one-expense ledger used by the C8 witness: alice paid 100 of
which she owes 50, bob paid 0 and owes 50. -/
def c8Ledger : List ExpenseRec :=
  [{ splits := [{ user := "alice", paid := 100, owed := 50 },
                { user := "bob", paid := 0, owed := 50 }] }]

unseal Rat.add Rat.mul Rat.sub Rat.inv in
/-- Witness for C8: on `c8Ledger` the usernames are duplicate-free, the
formula yields (100 - 50) / (2 - 1) = 50 against bob, and 50 survives the
0.01 drop filter. -/
theorem c8_pairwise_formula_witness :
    calcUserBalances "alice" c8Ledger "bob" =
      (if (1 : ℚ)/100 < |pairwiseSpec "alice" c8Ledger "bob"|
        then some (pairwiseSpec "alice" c8Ledger "bob") else none) ∧
    calcUserBalances "alice" c8Ledger "bob" = some 50 :=
  ⟨c8_pairwise_formula "alice" c8Ledger (by decide) "bob", by decide⟩

/-- C9 confirmed: whenever `_calculate_user_balances` reaches the division
`net / (len(expense.splits) - 1)` — that is, whenever the expense holds a
split of the querying user and a split of some other user — the expense has
at least two splits, so the divisor is at least 1 and in particular never
zero.  An expense with a single split never reaches the division: either its
split belongs to the querying user (no other participant to iterate) or the
outer loop over the user's splits is empty. -/
theorem c9_divisor_positive (u : String) (e : ExpenseRec) (s t : SplitRec)
    (hs : s ∈ e.splits) (ht : t ∈ e.splits) (hsu : s.user = u) (htu : t.user ≠ u) :
    2 ≤ e.splits.length ∧ (1 : ℚ) ≤ (e.splits.length : ℚ) - 1 := by
  have hne : s ≠ t := fun h => htu (h ▸ hsu)
  have h2 : 2 ≤ e.splits.length := by
    rcases hl : e.splits with _ | ⟨a, _ | ⟨b, l⟩⟩
    · rw [hl] at hs
      cases hs
    · rw [hl] at hs ht
      have hsa : s = a := by simpa using hs
      have hta : t = a := by simpa using ht
      exact absurd (hsa.trans hta.symm) hne
    · simp [List.length_cons]
  refine ⟨h2, ?_⟩
  have hc : (2 : ℚ) ≤ (e.splits.length : ℚ) := by exact_mod_cast h2
  linarith

/-- The concrete two-split expense used by the C9 witness. -/
def c9Expense : ExpenseRec :=
  { splits := [{ user := "alice", paid := 100, owed := 50 },
               { user := "bob", paid := 0, owed := 50 }] }

/-- Witness for C9 at a concrete two-split expense: alice's split and bob's
split are both present, so the divisor `len(splits) - 1` is at least 1. -/
theorem c9_divisor_positive_witness :
    2 ≤ c9Expense.splits.length ∧ (1 : ℚ) ≤ (c9Expense.splits.length : ℚ) - 1 :=
  c9_divisor_positive "alice" c9Expense
    { user := "alice", paid := 100, owed := 50 }
    { user := "bob", paid := 0, owed := 50 }
    (by decide) (by decide) (by decide) (by decide)

/-- A balance-dict entry as the store-passing model sees it: the username and
the index of the heap cell holding the Python float object for its balance. -/
structure PersonRef where
  username : String
  cell : ℕ
deriving DecidableEq, Repr

/-- Reading a heap cell (0 for an unallocated index; every cell the model
touches is allocated). -/
def storeRead (σ : List ℚ) (k : ℕ) : ℚ := σ.getD k 0

/-- Writing a heap cell (out-of-range writes are no-ops; every cell the model
writes is allocated). -/
def storeWrite (σ : List ℚ) (k : ℕ) (v : ℚ) : List ℚ := σ.set k v

/-- The creditor/debtor partition loop of `_simplify_debts` (src/bot/bot.py
lines 214-220) over an explicit heap: for each balance entry, the Python code
builds a FRESH record `{"username": ..., "amount": ...}` — modelled as
allocating a new cell at the end of the store holding a copy of the balance
(negated for debtors) — and appends it to the creditor or debtor list.  The
caller's balance cells are only read, never written.  Returns the extended
store, the creditor refs and the debtor refs, in input order. -/
def buildParties : List ℚ → List (String × ℕ) → List ℚ × List PersonRef × List PersonRef
  | σ, [] => (σ, [], [])
  | σ, (nm, k) :: rest =>
    let v := storeRead σ k
    if (1 : ℚ)/100 < v then
      let out := buildParties (σ ++ [v]) rest
      (out.1, { username := nm, cell := σ.length } :: out.2.1, out.2.2)
    else if v < -(1/100 : ℚ) then
      let out := buildParties (σ ++ [-v]) rest
      (out.1, out.2.1, { username := nm, cell := σ.length } :: out.2.2)
    else
      buildParties σ rest

/-- The greedy settle loop of `_simplify_debts` over the explicit heap, with
fuel as in `settleLoopF`: `debtor["amount"] -= amount` and
`creditor["amount"] -= amount` are writes to the fresh cells allocated by
`buildParties`, never to the caller's balance cells. -/
def settleLoopS : ℕ → List ℚ → List PersonRef → List PersonRef → List Txn × List ℚ
  | _, σ, [], _ => ([], σ)
  | _, σ, _ :: _, [] => ([], σ)
  | 0, σ, _ :: _, _ :: _ => ([], σ)
  | fuel + 1, σ, d :: ds, c :: cs =>
    let da := storeRead σ d.cell
    let ca := storeRead σ c.cell
    let amount := min da ca
    let emitted : List Txn :=
      if (1 : ℚ)/100 < amount then
        [{ src := d.username, dst := c.username, amount := round2 amount }]
      else []
    let σ1 := storeWrite (storeWrite σ d.cell (da - amount)) c.cell (ca - amount)
    if da - amount < 1/100 then
      if ca - amount < 1/100 then
        let out := settleLoopS fuel σ1 ds cs
        (emitted ++ out.1, out.2)
      else
        let out := settleLoopS fuel σ1 ds (c :: cs)
        (emitted ++ out.1, out.2)
    else
      -- da - amount ≥ 0.01 forces amount = ca, so ca - amount = 0 < 0.01:
      -- the creditor cursor advances, the debtor cursor stays.
      let out := settleLoopS fuel σ1 (d :: ds) cs
      (emitted ++ out.1, out.2)

/-- `_simplify_debts` over the explicit heap: partition (allocating fresh
amount cells), sort both ref lists descending by their current amounts, run
the greedy loop.  Returns the transactions and the final heap, so that what
happened to the caller's balance cells is observable. -/
def simplifyS (σ : List ℚ) (balances : List (String × ℕ)) : List Txn × List ℚ :=
  let out := buildParties σ balances
  let σ1 := out.1
  let cs := out.2.1
  let ds := out.2.2
  settleLoopS (ds.length + cs.length) σ1
    (sortDescBy (fun r => storeRead σ1 r.cell) ds)
    (sortDescBy (fun r => storeRead σ1 r.cell) cs)

/-- Reading below the length of the original store is unaffected by appended
allocations. -/
theorem storeRead_append (σ : List ℚ) (v : ℚ) (k : ℕ) (hk : k < σ.length) :
    storeRead (σ ++ [v]) k = storeRead σ k := by
  unfold storeRead
  unfold List.getD
  rw [List.get?_eq_getElem?, List.get?_eq_getElem?, List.getElem?_append_left hk]

/-- Writing one cell leaves every other cell unchanged. -/
theorem storeRead_write_ne (σ : List ℚ) (j k : ℕ) (v : ℚ) (h : j ≠ k) :
    storeRead (storeWrite σ j v) k = storeRead σ k := by
  unfold storeRead storeWrite
  unfold List.getD
  rw [List.get?_eq_getElem?, List.get?_eq_getElem?, List.getElem?_set_ne h]

/-- The settle loop writes only the amount cells of the debtor/creditor
records it walks: any other cell reads the same before and after. -/
theorem settleLoopS_preserves :
    ∀ (f : ℕ) (σ : List ℚ) (ds cs : List PersonRef) (k : ℕ),
      (∀ r ∈ ds, r.cell ≠ k) → (∀ r ∈ cs, r.cell ≠ k) →
      storeRead (settleLoopS f σ ds cs).2 k = storeRead σ k := by
  intro f
  induction f with
  | zero =>
    intro σ ds cs k _ _
    match ds, cs with
    | [], _ => rfl
    | _ :: _, [] => rfl
    | _ :: _, _ :: _ => rfl
  | succ g ih =>
    intro σ ds cs k hd hc
    match ds, cs with
    | [], _ => rfl
    | _ :: _, [] => rfl
    | d :: ds, c :: cs =>
      have hdk : d.cell ≠ k := hd d (List.mem_cons_self d ds)
      have hck : c.cell ≠ k := hc c (List.mem_cons_self c cs)
      have hdt : ∀ r ∈ ds, r.cell ≠ k := fun r hr => hd r (List.mem_cons_of_mem d hr)
      have hct : ∀ r ∈ cs, r.cell ≠ k := fun r hr => hc r (List.mem_cons_of_mem c hr)
      have hσ1 : ∀ vd vc,
          storeRead (storeWrite (storeWrite σ d.cell vd) c.cell vc) k = storeRead σ k := by
        intro vd vc
        rw [storeRead_write_ne _ _ _ _ hck, storeRead_write_ne _ _ _ _ hdk]
      simp only [settleLoopS]
      by_cases h1 : storeRead σ d.cell -
          min (storeRead σ d.cell) (storeRead σ c.cell) < 1/100
      · simp only [if_pos h1]
        by_cases h2 : storeRead σ c.cell -
            min (storeRead σ d.cell) (storeRead σ c.cell) < 1/100
        · simp only [if_pos h2]
          rw [ih _ ds cs k hdt hct, hσ1]
        · simp only [if_neg h2]
          rw [ih _ ds (c :: cs) k hdt hc, hσ1]
      · simp only [if_neg h1]
        rw [ih _ (d :: ds) cs k hd hct, hσ1]

/-- The partition loop allocates only fresh cells: every creditor/debtor
record it returns points at or beyond the original store length, and every
cell below the original length reads the same in the extended store. -/
theorem buildParties_spec :
    ∀ (bs : List (String × ℕ)) (σ : List ℚ),
      (∀ r ∈ (buildParties σ bs).2.1, σ.length ≤ r.cell) ∧
      (∀ r ∈ (buildParties σ bs).2.2, σ.length ≤ r.cell) ∧
      (∀ k, k < σ.length → storeRead (buildParties σ bs).1 k = storeRead σ k) := by
  intro bs
  induction bs with
  | nil =>
    intro σ
    refine ⟨?_, ?_, ?_⟩ <;> intro r hr <;> first
      | cases hr
      | rfl
  | cons p bs ih =>
    intro σ
    obtain ⟨nm, j⟩ := p
    by_cases h1 : (1 : ℚ)/100 < storeRead σ j
    · obtain ⟨ih1, ih2, ih3⟩ := ih (σ ++ [storeRead σ j])
      have hlen : (σ ++ [storeRead σ j]).length = σ.length + 1 := by simp
      simp only [buildParties, if_pos h1]
      refine ⟨?_, ?_, ?_⟩
      · intro r hr
        rcases List.mem_cons.mp hr with h | h
        · subst h
          exact le_refl _
        · have := ih1 r h
          omega
      · intro r hr
        have := ih2 r hr
        omega
      · intro k hk
        rw [ih3 k (by omega), storeRead_append σ _ k hk]
    · by_cases h2 : storeRead σ j < -(1/100 : ℚ)
      · obtain ⟨ih1, ih2, ih3⟩ := ih (σ ++ [-storeRead σ j])
        have hlen : (σ ++ [-storeRead σ j]).length = σ.length + 1 := by simp
        simp only [buildParties, if_neg h1, if_pos h2]
        refine ⟨?_, ?_, ?_⟩
        · intro r hr
          have := ih1 r hr
          omega
        · intro r hr
          rcases List.mem_cons.mp hr with h | h
          · subst h
            exact le_refl _
          · have := ih2 r h
            omega
        · intro k hk
          rw [ih3 k (by omega), storeRead_append σ _ k hk]
      · simp only [buildParties, if_neg h1, if_neg h2]
        exact ih σ

/-- Insertion keeps exactly the inserted element and the old elements. -/
theorem mem_insertDescBy {α : Type} (key : α → ℚ) (x y : α) :
    ∀ l : List α, y ∈ insertDescBy key x l → y = x ∨ y ∈ l := by
  intro l
  induction l with
  | nil =>
    intro h
    rcases List.mem_cons.mp h with h | h
    · exact Or.inl h
    · cases h
  | cons z zs ih =>
    simp only [insertDescBy]
    by_cases hz : key z ≤ key x
    · rw [if_pos hz]
      intro h
      rcases List.mem_cons.mp h with h | h
      · exact Or.inl h
      · exact Or.inr h
    · rw [if_neg hz]
      intro h
      rcases List.mem_cons.mp h with h | h
      · exact Or.inr (h ▸ List.mem_cons_self z zs)
      · rcases ih h with h' | h'
        · exact Or.inl h'
        · exact Or.inr (List.mem_cons_of_mem z h')

/-- Sorting permutes: every element of the sorted list is in the original. -/
theorem mem_sortDescBy {α : Type} (key : α → ℚ) :
    ∀ (l : List α) (y : α), y ∈ sortDescBy key l → y ∈ l := by
  intro l
  induction l with
  | nil => intro y h; cases h
  | cons x xs ih =>
    intro y h
    rcases mem_insertDescBy key x y (sortDescBy key xs) h with h' | h'
    · exact h' ▸ List.mem_cons_self x xs
    · exact List.mem_cons_of_mem x (ih y h')

/-- C10 confirmed: `simplify_debts` never mutates its input balance map.  In
the store-passing model every balance cell of the caller reads the same after
the call as before: the partition loop only reads the caller's cells and
allocates fresh amount cells, and the settle loop writes only those fresh
cells (all at indices at or beyond the original store length). -/
theorem c10_no_input_mutation (σ : List ℚ) (balances : List (String × ℕ))
    (nm : String) (k : ℕ) (_hmem : (nm, k) ∈ balances) (hk : k < σ.length) :
    storeRead (simplifyS σ balances).2 k = storeRead σ k := by
  obtain ⟨hcred, hdebt, hpres⟩ := buildParties_spec balances σ
  unfold simplifyS
  rw [settleLoopS_preserves _ _ _ _ k
    (fun r hr => by
      have := hdebt r (mem_sortDescBy _ _ r hr)
      omega)
    (fun r hr => by
      have := hcred r (mem_sortDescBy _ _ r hr)
      omega)]
  exact hpres k hk

/-- The concrete heap for the C10 witness: alice's balance object 2.0 in cell
0, bob's balance object -2.0 in cell 1. -/
def c10Store : List ℚ := [2, -2]

/-- The concrete balance dict for the C10 witness. -/
def c10Balances : List (String × ℕ) := [("alice", 0), ("bob", 1)]

/-- Witness for C10: after running the simplifier over the concrete heap,
alice's balance cell still reads its original value. -/
theorem c10_no_input_mutation_witness :
    ("alice", 0) ∈ c10Balances ∧ 0 < c10Store.length ∧
    storeRead (simplifyS c10Store c10Balances).2 0 = storeRead c10Store 0 :=
  ⟨by decide, by decide,
    c10_no_input_mutation c10Store c10Balances "alice" 0 (by decide) (by decide)⟩
